import Mathlib

/-!
Verification of `tensorflow/core/kernels/data/unbounded_thread_pool.h`
(`tensorflow::data::UnboundedThreadPool`).

The repository provides only the header: the class declaration, the data
members with their initializers, and the doc comments.  The method bodies
(`RunOnPooledThread`, `PooledThreadFunc`, the destructor, the logical-thread
factory) live in a `.cc` file that is not part of the sources, so they are
modelled from the specification as a small-step transition system over an
explicit pool state.  Machine threads become indices into the owned
thread registry `threadPool`; each registered physical thread carries a
`WorkerPhase` describing where it stands in its `PooledThreadFunc` loop.
Ghost fields (`submitted`, `completed`, `notified`) record the observable
history: which work items were ever submitted, which work functions have run
to completion, and which done-notifications have fired.
-/

namespace UnboundedThreadPool

/-- A work item, as in the header (lines 55-58): a work function paired with a
shared done-notification.  `workId` stands for the identity of the
`std::function`, `notifId` for the identity of the shared `Notification`.
`blockOn` models the observable blocking behaviour of the work function: a
work function either never blocks (`none`) or blocks until some other item's
notification `n` has fired (`some n`), which is how logical threads block on
one another. -/
structure WorkItem where
  workId : Nat
  blockOn : Option Nat
  notifId : Nat
deriving DecidableEq, Repr

/-- Where a registered physical thread stands in its `PooledThreadFunc` loop.
`looping` = at the top of the loop, about to inspect the queue; `idleWaiting`
= blocked on `work_queue_cv_` (counted by `num_idle_threads_`); `running it` =
executing `it.work_function`; `blockedOn it` = inside `it.work_function`,
blocked waiting for the notification `it.blockOn`; `notifying it` = the work
function has returned, about to call `done_notification->Notify()`; `exited`
= the thread function has returned. -/
inductive WorkerPhase where
  | looping
  | idleWaiting
  | running (it : WorkItem)
  | blockedOn (it : WorkItem)
  | notifying (it : WorkItem)
  | exited
deriving DecidableEq, Repr

/-- The pool state: the fields guarded by `work_queue_mu_` (lines 65-69 of the
header: `num_idle_threads_`, `cancelled_`, `work_queue_`), the thread registry
`thread_pool_` (line 71) with each thread's phase, and ghost history fields
`submitted` / `completed` / `notified`. -/
structure PoolState where
  cancelled : Bool
  numIdleThreads : Nat
  workQueue : List WorkItem
  threadPool : List WorkerPhase
  submitted : List WorkItem
  completed : List WorkItem
  notified : List Nat
deriving DecidableEq, Repr

/-- The state established by the constructor (header lines 41-42): it only
stores `env_` and `thread_name_`; the member initializers give
`num_idle_threads_ = 0`, `cancelled_ = false`, an empty `work_queue_` and an
empty `thread_pool_`.  No physical thread is spawned. -/
def initState : PoolState :=
  { cancelled := false
    numIdleThreads := 0
    workQueue := []
    threadPool := []
    submitted := []
    completed := []
    notified := [] }

/-- `size()` (header line 50): the current number of physical threads in the
pool, i.e. `thread_pool_.size()`. -/
def size (s : PoolState) : Nat := s.threadPool.length

/-- Replace the phase of the physical thread at index `i`. -/
def setPhase (s : PoolState) (i : Nat) (p : WorkerPhase) : PoolState :=
  { s with threadPool := s.threadPool.set i p }

/-- Modelled from the spec: the submission path of the logical-thread factory
(the bodies of `StartThread` / `RunOnPooledThread` are not in the sources).
"On every submission, if currently zero physical threads are idle, spawn one
additional physical thread concurrently with enqueuing; if idle threads
exist, reuse them instead" and "`Submit(item)` appends to the tail and wakes
at least one waiting worker; must never reject work regardless of current
depth."  A freshly spawned thread starts at the top of its loop. -/
def submit (s : PoolState) (it : WorkItem) : PoolState :=
  { s with
    workQueue := s.workQueue ++ [it]
    threadPool :=
      if s.numIdleThreads = 0 then s.threadPool ++ [WorkerPhase.looping]
      else s.threadPool
    submitted := s.submitted ++ [it] }

/-- Modelled from the spec: the first half of the destructor, "Destruction
sets the cancelled flag under lock" (the destructor body is not in the
sources). -/
def setCancelled (s : PoolState) : PoolState := { s with cancelled := true }

/-- Modelled from the spec: the effect of broadcasting `work_queue_cv_` in the
destructor: "broadcasts the condition variable ... every idle worker must
wake", so every thread blocked on the condition variable returns to the top
of its loop and the idle count drops to zero. -/
def broadcastAll (s : PoolState) : PoolState :=
  { s with
    threadPool := s.threadPool.map
      (fun p => if p = WorkerPhase.idleWaiting then WorkerPhase.looping else p)
    numIdleThreads := 0 }

/-- `join` on the whole registry has returned exactly when every registered
physical thread has exited its loop. -/
def joinAllReturned (s : PoolState) : Prop :=
  ∀ p ∈ s.threadPool, p = WorkerPhase.exited

instance (s : PoolState) : Decidable (joinAllReturned s) :=
  List.decidableBAll _ s.threadPool

/-- Modelled from the spec: one small step of the pool.  `submit` is the
factory path; the remaining constructors are the steps of
`PooledThreadFunc` (whose body is not in the sources): "under lock, if the
queue is non-empty, pop the head (oldest-first) and return it; otherwise
increment idle count, block on a condition variable until either work arrives
or the pool is cancelled, then decrement idle count and retry", thread exit
on cancellation, execution of the work function (possibly blocking on another
item's notification), and firing the done-notification. -/
inductive Step : PoolState → PoolState → Prop where
  | submit (s : PoolState) (it : WorkItem) (hc : s.cancelled = false) :
      Step s (submit s it)
  | takeWork (s : PoolState) (i : Nat) (it : WorkItem) (rest : List WorkItem)
      (hp : s.threadPool[i]? = some WorkerPhase.looping)
      (hc : s.cancelled = false) (hq : s.workQueue = it :: rest) :
      Step s { setPhase s i (WorkerPhase.running it) with workQueue := rest }
  | goIdle (s : PoolState) (i : Nat)
      (hp : s.threadPool[i]? = some WorkerPhase.looping)
      (hc : s.cancelled = false) (hq : s.workQueue = []) :
      Step s { setPhase s i WorkerPhase.idleWaiting with
               numIdleThreads := s.numIdleThreads + 1 }
  | wake (s : PoolState) (i : Nat)
      (hp : s.threadPool[i]? = some WorkerPhase.idleWaiting)
      (hw : s.workQueue ≠ [] ∨ s.cancelled = true) :
      Step s { setPhase s i WorkerPhase.looping with
               numIdleThreads := s.numIdleThreads - 1 }
  | exitLoop (s : PoolState) (i : Nat)
      (hp : s.threadPool[i]? = some WorkerPhase.looping)
      (hc : s.cancelled = true) :
      Step s (setPhase s i WorkerPhase.exited)
  | startBlock (s : PoolState) (i : Nat) (it : WorkItem) (n : Nat)
      (hp : s.threadPool[i]? = some (WorkerPhase.running it))
      (hb : it.blockOn = some n) :
      Step s (setPhase s i (WorkerPhase.blockedOn it))
  | finishExec (s : PoolState) (i : Nat) (it : WorkItem)
      (hp : s.threadPool[i]? = some (WorkerPhase.running it))
      (hb : it.blockOn = none) :
      Step s { setPhase s i (WorkerPhase.notifying it) with
               completed := s.completed ++ [it] }
  | unblockFinish (s : PoolState) (i : Nat) (it : WorkItem) (n : Nat)
      (hp : s.threadPool[i]? = some (WorkerPhase.blockedOn it))
      (hb : it.blockOn = some n) (hn : n ∈ s.notified) :
      Step s { setPhase s i (WorkerPhase.notifying it) with
               completed := s.completed ++ [it] }
  | notify (s : PoolState) (i : Nat) (it : WorkItem)
      (hp : s.threadPool[i]? = some (WorkerPhase.notifying it)) :
      Step s { setPhase s i WorkerPhase.looping with
               notified := s.notified ++ [it.notifId] }
  | cancel (s : PoolState) : Step s (setCancelled s)

/-- `n`-step executions of the pool. -/
inductive Steps : Nat → PoolState → PoolState → Prop where
  | refl (s : PoolState) : Steps 0 s s
  | tail {n : Nat} {s t u : PoolState} (h1 : Steps n s t) (h2 : Step t u) :
      Steps (n + 1) s u

/-- A pool state is reachable when some finite execution from the
freshly-constructed pool produces it. -/
def Reachable (s : PoolState) : Prop := ∃ n, Steps n initState s

theorem reachable_init : Reachable initState := ⟨0, Steps.refl initState⟩

theorem steps_trans {m n : Nat} {s t u : PoolState}
    (h1 : Steps m s t) (h2 : Steps n t u) : Steps (m + n) s u := by
  induction h2 generalizing m with
  | refl => exact h1
  | tail h1' h2' ih => exact Steps.tail (ih h1) h2'

theorem steps_one {s t : PoolState} (h : Step s t) : Steps 1 s t :=
  Steps.tail (Steps.refl s) h

/-- Number of registry entries currently blocked on the condition variable. -/
def countIdle (l : List WorkerPhase) : Nat :=
  l.countP fun p => decide (p = WorkerPhase.idleWaiting)

/-- The bookkeeping invariant of `num_idle_threads_`: the counter equals the
number of physical threads actually blocked on `work_queue_cv_`. -/
def Inv (s : PoolState) : Prop :=
  s.numIdleThreads = countIdle s.threadPool

instance (s : PoolState) : Decidable (Inv s) := by
  unfold Inv; infer_instance

theorem countIdle_le_length (l : List WorkerPhase) : countIdle l ≤ l.length :=
  List.countP_le_length _

theorem countIdle_append (l₁ l₂ : List WorkerPhase) :
    countIdle (l₁ ++ l₂) = countIdle l₁ + countIdle l₂ :=
  List.countP_append _ _ _

theorem countIdle_set {l : List WorkerPhase} {i : Nat} {p : WorkerPhase}
    (q : WorkerPhase) (hp : l[i]? = some p) :
    countIdle (l.set i q) =
      countIdle l - (if p = WorkerPhase.idleWaiting then 1 else 0)
        + (if q = WorkerPhase.idleWaiting then 1 else 0) := by
  obtain ⟨hi, hget⟩ := List.getElem?_eq_some.mp hp
  unfold countIdle
  rw [List.countP_set _ _ _ _ hi, hget]
  by_cases h1 : p = WorkerPhase.idleWaiting <;>
    by_cases h2 : q = WorkerPhase.idleWaiting <;> simp [h1, h2]

theorem countIdle_pos {l : List WorkerPhase} {i : Nat}
    (hp : l[i]? = some WorkerPhase.idleWaiting) : 1 ≤ countIdle l := by
  obtain ⟨hi, hget⟩ := List.getElem?_eq_some.mp hp
  have hmem : WorkerPhase.idleWaiting ∈ l := hget ▸ List.getElem_mem hi
  exact List.countP_pos_iff.mpr ⟨_, hmem, by simp⟩

theorem inv_step {s t : PoolState} (hs : Inv s) (h : Step s t) : Inv t := by
  unfold Inv at hs ⊢
  cases h with
  | submit it hc =>
      simp only [submit]
      by_cases h0 : s.numIdleThreads = 0
      · rw [if_pos h0, countIdle_append]
        simpa [countIdle] using hs
      · rwa [if_neg h0]
  | takeWork i it rest hp hc hq =>
      simp [setPhase, countIdle_set _ hp, hs]
  | goIdle i hp hc hq =>
      simp [setPhase, countIdle_set _ hp, hs]
  | wake i hp hw =>
      have h1 := countIdle_pos hp
      simp [setPhase, countIdle_set _ hp, hs]
  | exitLoop i hp hc =>
      simp [setPhase, countIdle_set _ hp, hs]
  | startBlock i it n hp hb =>
      simp [setPhase, countIdle_set _ hp, hs]
  | finishExec i it hp hb =>
      simp [setPhase, countIdle_set _ hp, hs]
  | unblockFinish i it n hp hb hn =>
      simp [setPhase, countIdle_set _ hp, hs]
  | notify i it hp =>
      simp [setPhase, countIdle_set _ hp, hs]
  | cancel =>
      simpa [setCancelled] using hs

theorem inv_steps {n : Nat} {s t : PoolState} (hs : Inv s) (h : Steps n s t) :
    Inv t := by
  induction h with
  | refl => exact hs
  | tail h1 h2 ih => exact inv_step (ih hs) h2

theorem inv_init : Inv initState := by decide

theorem reachable_inv {s : PoolState} (h : Reachable s) : Inv s := by
  obtain ⟨n, hn⟩ := h
  exact inv_steps inv_init hn

theorem step_size_le {s t : PoolState} (h : Step s t) : size s ≤ size t := by
  cases h with
  | submit it hc =>
      simp only [submit, size]
      by_cases h0 : s.numIdleThreads = 0
      · rw [if_pos h0]; simp
      · rw [if_neg h0]
  | takeWork i it rest hp hc hq => simp [size, setPhase]
  | goIdle i hp hc hq => simp [size, setPhase]
  | wake i hp hw => simp [size, setPhase]
  | exitLoop i hp hc => simp [size, setPhase]
  | startBlock i it n hp hb => simp [size, setPhase]
  | finishExec i it hp hb => simp [size, setPhase]
  | unblockFinish i it n hp hb hn => simp [size, setPhase]
  | notify i it hp => simp [size, setPhase]
  | cancel => simp [size, setCancelled]

theorem step_submitted_or_size {s t : PoolState} (h : Step s t) :
    (t.submitted = s.submitted ∧ size t = size s) ∨
    ∃ it, t.submitted = s.submitted ++ [it] := by
  cases h with
  | submit it hc => exact Or.inr ⟨it, rfl⟩
  | takeWork i it rest hp hc hq => exact Or.inl ⟨rfl, by simp [size, setPhase]⟩
  | goIdle i hp hc hq => exact Or.inl ⟨rfl, by simp [size, setPhase]⟩
  | wake i hp hw => exact Or.inl ⟨rfl, by simp [size, setPhase]⟩
  | exitLoop i hp hc => exact Or.inl ⟨rfl, by simp [size, setPhase]⟩
  | startBlock i it n hp hb => exact Or.inl ⟨rfl, by simp [size, setPhase]⟩
  | finishExec i it hp hb => exact Or.inl ⟨rfl, by simp [size, setPhase]⟩
  | unblockFinish i it n hp hb hn => exact Or.inl ⟨rfl, by simp [size, setPhase]⟩
  | notify i it hp => exact Or.inl ⟨rfl, by simp [size, setPhase]⟩
  | cancel => exact Or.inl ⟨rfl, rfl⟩

theorem submitted_monotone {n : Nat} {s t : PoolState} (h : Steps n s t) :
    ∃ l, t.submitted = s.submitted ++ l := by
  induction h with
  | refl => exact ⟨[], by simp⟩
  | tail h1 h2 ih =>
      obtain ⟨l, hl⟩ := ih
      rcases step_submitted_or_size h2 with ⟨he, _⟩ | ⟨it, he⟩
      · exact ⟨l, by rw [he, hl]⟩
      · exact ⟨l ++ [it], by rw [he, hl, List.append_assoc]⟩

theorem size_eq_of_no_submission {n : Nat} {s t : PoolState}
    (h : Steps n s t) (hsub : t.submitted = s.submitted) : size t = size s := by
  induction h with
  | refl => rfl
  | tail h1 h2 ih =>
      obtain ⟨l, hl⟩ := submitted_monotone h1
      rcases step_submitted_or_size h2 with ⟨he, hsz⟩ | ⟨it, he⟩
      · rw [hsz]; exact ih (he ▸ hsub)
      · exfalso
        rw [he, hl] at hsub
        have := congrArg List.length hsub
        simp [List.length_append] at this

/-- C10: immediately after construction the pool is in the empty initial
state: the constructor (header lines 41-42) only stores the environment and
the thread name; the member initializers give `num_idle_threads_ = 0`,
`cancelled_ = false`, an empty work queue and an empty thread registry, so
`size()` returns 0, and it stays 0 along any execution in which nothing has
been submitted yet. -/
theorem constructor_initial_state :
    initState.numIdleThreads = 0 ∧ initState.cancelled = false ∧
    initState.workQueue = [] ∧ initState.threadPool = [] ∧ size initState = 0 ∧
    ∀ (n : Nat) (s : PoolState), Steps n initState s → s.submitted = [] →
      size s = 0 :=
  ⟨rfl, rfl, rfl, rfl, rfl, fun _ _ h hsub =>
    (size_eq_of_no_submission h (by rw [hsub]; rfl)).trans rfl⟩

/-- Witness for C10 at the concrete zero-step execution. -/
theorem constructor_initial_state_witness :
    (Steps 0 initState initState ∧ initState.submitted = []) ∧
    size initState = 0 :=
  ⟨⟨Steps.refl initState, rfl⟩,
    constructor_initial_state.2.2.2.2.2 0 initState (Steps.refl initState) rfl⟩

/-- C1: on every submission, the work item is enqueued, and the pool grows by
exactly one physical thread precisely when zero physical threads are idle;
when at least one physical thread is idle the registry is left untouched (the
idle thread is reused, no spawn). -/
theorem submit_spawn_policy (s : PoolState) (it : WorkItem) :
    (submit s it).workQueue = s.workQueue ++ [it] ∧
    (size (submit s it) = size s + 1 ↔ s.numIdleThreads = 0) ∧
    ((submit s it).threadPool = s.threadPool ↔ 0 < s.numIdleThreads) := by
  refine ⟨rfl, ?_, ?_⟩ <;>
    by_cases h0 : s.numIdleThreads = 0 <;>
    simp [submit, size, h0, Nat.pos_of_ne_zero]

/-- C6: `Submit` appends the item at the tail of the work queue
unconditionally — it is a total function that never rejects or drops work at
any queue depth — and afterwards the queue is non-empty, so the
condition-variable wake transition is enabled for every physical thread that
was waiting: a waiting worker can be woken. -/
theorem submit_never_rejects_and_wakes (s : PoolState) (it : WorkItem) :
    (submit s it).workQueue = s.workQueue ++ [it] ∧
    (submit s it).submitted = s.submitted ++ [it] ∧
    ∀ i, (submit s it).threadPool[i]? = some WorkerPhase.idleWaiting →
      Step (submit s it)
        { setPhase (submit s it) i WorkerPhase.looping with
          numIdleThreads := (submit s it).numIdleThreads - 1 } :=
  ⟨rfl, rfl, fun i hp => Step.wake _ i hp (Or.inl (by simp [submit]))⟩

/-- An example pool state with a single idle physical thread. -/
def exampleIdle : PoolState :=
  { cancelled := false
    numIdleThreads := 1
    workQueue := []
    threadPool := [WorkerPhase.idleWaiting]
    submitted := []
    completed := []
    notified := [] }

/-- An example non-blocking work item. -/
def exampleItem : WorkItem := { workId := 7, blockOn := none, notifId := 7 }

/-- Witness for C6 at a concrete state with one idle worker. -/
theorem submit_never_rejects_and_wakes_witness :
    (submit exampleIdle exampleItem).threadPool[0]? =
      some WorkerPhase.idleWaiting ∧
    Step (submit exampleIdle exampleItem)
      { setPhase (submit exampleIdle exampleItem) 0 WorkerPhase.looping with
        numIdleThreads := (submit exampleIdle exampleItem).numIdleThreads - 1 } :=
  ⟨by decide,
    (submit_never_rejects_and_wakes exampleIdle exampleItem).2.2 0 (by decide)⟩

/-- C7: in every reachable pool state, `num_idle_threads_` is at most the
number of physical threads in the registry `thread_pool_`. -/
theorem num_idle_le_size (s : PoolState) (h : Reachable s) :
    s.numIdleThreads ≤ size s := by
  rw [reachable_inv h]
  exact countIdle_le_length s.threadPool

/-- Witness for C7 at the freshly-constructed pool. -/
theorem num_idle_le_size_witness :
    Reachable initState ∧ initState.numIdleThreads ≤ size initState :=
  ⟨⟨0, Steps.refl initState⟩,
    num_idle_le_size initState ⟨0, Steps.refl initState⟩⟩

/-- C8: across every execution of pool operations, `size()` is monotonically
non-decreasing — no step of the pool ever removes a physical thread from the
registry; steps either update a thread's phase in place or append a freshly
spawned thread. -/
theorem size_monotone {n : Nat} {s t : PoolState} (h : Steps n s t) :
    size s ≤ size t := by
  induction h with
  | refl => exact Nat.le_refl _
  | tail h1 h2 ih => exact Nat.le_trans ih (step_size_le h2)

/-- Witness for C8 on a concrete one-step execution. -/
theorem size_monotone_witness :
    Steps 1 initState (submit initState exampleItem) ∧
    size initState ≤ size (submit initState exampleItem) :=
  ⟨steps_one (Step.submit initState exampleItem rfl),
    size_monotone (steps_one (Step.submit initState exampleItem rfl))⟩

/-- The possible results of one iteration of the dequeue loop run by a
worker. -/
inductive TakeOutcome where
  | took (it : WorkItem) (s : PoolState)
  | waiting (s : PoolState)
  | cancelledExit (s : PoolState)
deriving DecidableEq, Repr

/-- Modelled from the spec: one iteration of `TryTakeOrWait()` run by the
physical thread at index `i` (the body is not in the sources): "under lock,
if the queue is non-empty, pop the head (oldest-first) and return it;
otherwise increment idle count, block on a condition variable until either
work arrives or the pool is cancelled, then decrement idle count and retry";
on cancellation the worker exits instead of taking work. -/
def tryTakeOrWait (s : PoolState) (i : Nat) : TakeOutcome :=
  if s.cancelled then TakeOutcome.cancelledExit (setPhase s i WorkerPhase.exited)
  else
    match s.workQueue with
    | it :: rest =>
        TakeOutcome.took it
          { setPhase s i (WorkerPhase.running it) with workQueue := rest }
    | [] =>
        TakeOutcome.waiting
          { setPhase s i WorkerPhase.idleWaiting with
            numIdleThreads := s.numIdleThreads + 1 }

/-- Modelled from the spec: a worker waking from the condition variable
"decrement[s] idle count and retr[ies]": back to the top of the loop. -/
def wakeRetry (s : PoolState) (i : Nat) : PoolState :=
  { setPhase s i WorkerPhase.looping with
    numIdleThreads := s.numIdleThreads - 1 }

/-- C2: for a worker at the top of its loop in a non-cancelled pool: if the
work queue is non-empty, `TryTakeOrWait` removes and returns the head — the
oldest submitted item, so FIFO submission order is preserved — and this is a
valid pool step; if the queue is empty it increments the idle count and
blocks (a valid step into the `idleWaiting` phase); and whenever a waiting
worker is woken because work arrived or the pool was cancelled, it decrements
the idle count and is back at the top of the loop to retry, again as a valid
pool step. -/
theorem tryTakeOrWait_spec (s : PoolState) (i : Nat)
    (hp : s.threadPool[i]? = some WorkerPhase.looping)
    (hc : s.cancelled = false) :
    (∀ it rest, s.workQueue = it :: rest →
      tryTakeOrWait s i =
        TakeOutcome.took it
          { setPhase s i (WorkerPhase.running it) with workQueue := rest } ∧
      Step s { setPhase s i (WorkerPhase.running it) with workQueue := rest }) ∧
    (s.workQueue = [] →
      tryTakeOrWait s i =
        TakeOutcome.waiting
          { setPhase s i WorkerPhase.idleWaiting with
            numIdleThreads := s.numIdleThreads + 1 } ∧
      Step s { setPhase s i WorkerPhase.idleWaiting with
               numIdleThreads := s.numIdleThreads + 1 }) ∧
    (∀ u : PoolState, u.threadPool[i]? = some WorkerPhase.idleWaiting →
      (u.workQueue ≠ [] ∨ u.cancelled = true) →
      (wakeRetry u i).numIdleThreads = u.numIdleThreads - 1 ∧
      (wakeRetry u i).threadPool[i]? = some WorkerPhase.looping ∧
      Step u (wakeRetry u i)) := by
  refine ⟨?_, ?_, ?_⟩
  · intro it rest hq
    constructor
    · simp [tryTakeOrWait, hc, hq]
    · exact Step.takeWork s i it rest hp hc hq
  · intro hq
    constructor
    · simp [tryTakeOrWait, hc, hq]
    · exact Step.goIdle s i hp hc hq
  · intro u hpu hw
    obtain ⟨hlt, _⟩ := List.getElem?_eq_some.mp hpu
    refine ⟨rfl, ?_, Step.wake u i hpu hw⟩
    simp [wakeRetry, setPhase, List.getElem?_set, hlt]

/-- An example state with one worker at the top of its loop and one queued
item. -/
def exampleReady : PoolState :=
  { cancelled := false
    numIdleThreads := 0
    workQueue := [exampleItem]
    threadPool := [WorkerPhase.looping]
    submitted := [exampleItem]
    completed := []
    notified := [] }

/-- Witness for C2 at a concrete state: the worker pops the single queued
item. -/
theorem tryTakeOrWait_spec_witness :
    (exampleReady.threadPool[0]? = some WorkerPhase.looping ∧
     exampleReady.cancelled = false ∧
     exampleReady.workQueue = exampleItem :: []) ∧
    tryTakeOrWait exampleReady 0 =
      TakeOutcome.took exampleItem
        { setPhase exampleReady 0 (WorkerPhase.running exampleItem) with
          workQueue := [] } :=
  ⟨⟨by decide, rfl, rfl⟩,
    ((tryTakeOrWait_spec exampleReady 0 (by decide) rfl).1 exampleItem []
      rfl).1⟩

/-- The happens-before invariant of the done-notification: a worker about to
call `Notify()` has already run the work function (its effects are in
`completed`), and every notification that has fired belongs to a work item
whose effects are completed. -/
def NotifyInv (s : PoolState) : Prop :=
  (∀ it, WorkerPhase.notifying it ∈ s.threadPool → it ∈ s.completed) ∧
  (∀ m ∈ s.notified, ∃ it, it ∈ s.completed ∧ it.notifId = m)

theorem step_notified_mono {s t : PoolState} (h : Step s t) {m : Nat}
    (hm : m ∈ s.notified) : m ∈ t.notified := by
  cases h <;> first
    | exact hm
    | exact List.mem_append_left _ hm

theorem steps_notified_mono {n : Nat} {s t : PoolState} (h : Steps n s t)
    {m : Nat} (hm : m ∈ s.notified) : m ∈ t.notified := by
  induction h with
  | refl => exact hm
  | tail h1 h2 ih => exact step_notified_mono h2 (ih hm)

theorem step_completed_mono {s t : PoolState} (h : Step s t) {it : WorkItem}
    (hm : it ∈ s.completed) : it ∈ t.completed := by
  cases h <;> first
    | exact hm
    | exact List.mem_append_left _ hm

theorem notifyInv_step {s t : PoolState} (hs : NotifyInv s) (h : Step s t) :
    NotifyInv t := by
  obtain ⟨h1, h2⟩ := hs
  cases h with
  | submit it hc =>
      refine ⟨fun it' hmem => ?_, h2⟩
      simp only [submit] at hmem
      by_cases h0 : s.numIdleThreads = 0
      · rw [if_pos h0, List.mem_append] at hmem
        rcases hmem with hmem' | hmem'
        · exact h1 it' hmem'
        · simp at hmem'
      · rw [if_neg h0] at hmem
        exact h1 it' hmem
  | takeWork i it rest hp hc hq =>
      refine ⟨fun it' hmem => ?_, h2⟩
      rcases List.mem_or_eq_of_mem_set hmem with hmem' | heq
      · exact h1 it' hmem'
      · simp at heq
  | goIdle i hp hc hq =>
      refine ⟨fun it' hmem => ?_, h2⟩
      rcases List.mem_or_eq_of_mem_set hmem with hmem' | heq
      · exact h1 it' hmem'
      · simp at heq
  | wake i hp hw =>
      refine ⟨fun it' hmem => ?_, h2⟩
      rcases List.mem_or_eq_of_mem_set hmem with hmem' | heq
      · exact h1 it' hmem'
      · simp at heq
  | exitLoop i hp hc =>
      refine ⟨fun it' hmem => ?_, h2⟩
      rcases List.mem_or_eq_of_mem_set hmem with hmem' | heq
      · exact h1 it' hmem'
      · simp at heq
  | startBlock i it n hp hb =>
      refine ⟨fun it' hmem => ?_, h2⟩
      rcases List.mem_or_eq_of_mem_set hmem with hmem' | heq
      · exact h1 it' hmem'
      · simp at heq
  | finishExec i it hp hb =>
      refine ⟨fun it' hmem => ?_, fun m hm => ?_⟩
      · rcases List.mem_or_eq_of_mem_set hmem with hmem' | heq
        · exact List.mem_append_left _ (h1 it' hmem')
        · simp only [WorkerPhase.notifying.injEq] at heq
          subst heq
          exact List.mem_append_right _ (by simp)
      · obtain ⟨it', hc', hid⟩ := h2 m hm
        exact ⟨it', List.mem_append_left _ hc', hid⟩
  | unblockFinish i it n hp hb hn =>
      refine ⟨fun it' hmem => ?_, fun m hm => ?_⟩
      · rcases List.mem_or_eq_of_mem_set hmem with hmem' | heq
        · exact List.mem_append_left _ (h1 it' hmem')
        · simp only [WorkerPhase.notifying.injEq] at heq
          subst heq
          exact List.mem_append_right _ (by simp)
      · obtain ⟨it', hc', hid⟩ := h2 m hm
        exact ⟨it', List.mem_append_left _ hc', hid⟩
  | notify i it hp =>
      refine ⟨fun it' hmem => ?_, fun m hm => ?_⟩
      · rcases List.mem_or_eq_of_mem_set hmem with hmem' | heq
        · exact h1 it' hmem'
        · simp at heq
      · rw [List.mem_append] at hm
        rcases hm with hm | hm
        · exact h2 m hm
        · obtain ⟨hlt, hget⟩ := List.getElem?_eq_some.mp hp
          have hmem : WorkerPhase.notifying it ∈ s.threadPool :=
            hget ▸ List.getElem_mem hlt
          simp only [List.mem_singleton] at hm
          exact ⟨it, h1 it hmem, hm.symm⟩
  | cancel =>
      exact ⟨h1, h2⟩

theorem notifyInv_init : NotifyInv initState := by
  constructor <;> simp [initState]

theorem notifyInv_steps {n : Nat} {s t : PoolState} (hs : NotifyInv s)
    (h : Steps n s t) : NotifyInv t := by
  induction h with
  | refl => exact hs
  | tail h1 h2 ih => exact notifyInv_step (ih hs) h2

theorem reachable_notifyInv {s : PoolState} (h : Reachable s) : NotifyInv s := by
  obtain ⟨n, hn⟩ := h
  exact notifyInv_steps notifyInv_init hn

/-- C5: joining a logical-thread handle: once the work item's completion
signal has fired in a reachable state, (a) the submitted function's side
effects have already happened — some completed work item carries exactly that
notification — so a `Join()` that returns (blocking on the signal) observes
the work as done; and (b) along every further execution the signal stays
fired, so a second `Join()` — or the implicit join performed when the handle
is destroyed without an explicit `Join()`, which waits on the very same
signal — finds the signal already fired and returns immediately with no
further effect (idempotence). -/
theorem join_observes_completion (s : PoolState) (m : Nat)
    (hr : Reachable s) (hm : m ∈ s.notified) :
    (∃ it, it ∈ s.completed ∧ it.notifId = m) ∧
    ∀ (n : Nat) (t : PoolState), Steps n s t → m ∈ t.notified :=
  ⟨(reachable_notifyInv hr).2 m hm,
    fun _ _ h => steps_notified_mono h hm⟩

/-- First state of the example execution: one item submitted to the fresh
pool, spawning one worker. -/
def exS1 : PoolState := submit initState exampleItem

/-- Second state: the worker dequeues the item. -/
def exS2 : PoolState :=
  { setPhase exS1 0 (WorkerPhase.running exampleItem) with workQueue := [] }

/-- Third state: the work function has run to completion. -/
def exS3 : PoolState :=
  { setPhase exS2 0 (WorkerPhase.notifying exampleItem) with
    completed := exS2.completed ++ [exampleItem] }

/-- Fourth state: the done-notification has fired. -/
def exS4 : PoolState :=
  { setPhase exS3 0 WorkerPhase.looping with
    notified := exS3.notified ++ [exampleItem.notifId] }

theorem exS4_reachable : Reachable exS4 :=
  ⟨4, Steps.tail
    (Steps.tail
      (Steps.tail
        (Steps.tail (Steps.refl initState)
          (Step.submit initState exampleItem rfl))
        (Step.takeWork exS1 0 exampleItem [] (by decide) rfl rfl))
      (Step.finishExec exS2 0 exampleItem (by decide) rfl))
    (Step.notify exS3 0 exampleItem (by decide))⟩

/-- Witness for C5 on the concrete 4-step execution: notification 7 has
fired, and indeed the item carrying it is completed. -/
theorem join_observes_completion_witness :
    (Reachable exS4 ∧ 7 ∈ exS4.notified) ∧
    (∃ it, it ∈ exS4.completed ∧ it.notifId = 7) :=
  ⟨⟨exS4_reachable, by decide⟩,
    (join_observes_completion exS4 7 exS4_reachable (by decide)).1⟩

/-- The work function of `it` is not stuck: if it blocks on a notification,
that notification has already fired. -/
def blockResolved (notified : List Nat) (it : WorkItem) : Prop :=
  ∀ m, it.blockOn = some m → m ∈ notified

instance (notified : List Nat) (it : WorkItem) :
    Decidable (blockResolved notified it) := by
  unfold blockResolved
  match h : it.blockOn with
  | none => exact isTrue (by simp [h])
  | some m0 => exact decidable_of_iff (m0 ∈ notified) (by simp [h])

/-- A phase from which the worker can still make progress on its own: a
worker running or blocked inside a work function is only guaranteed to finish
if the notification the function waits on (if any) has fired. -/
def phaseResumable (notified : List Nat) : WorkerPhase → Prop
  | WorkerPhase.running it => blockResolved notified it
  | WorkerPhase.blockedOn it => ∃ m, it.blockOn = some m ∧ m ∈ notified
  | _ => True

instance (notified : List Nat) (p : WorkerPhase) :
    Decidable (phaseResumable notified p) := by
  cases p with
  | running it => exact inferInstanceAs (Decidable (blockResolved notified it))
  | blockedOn it =>
      unfold phaseResumable
      match h : it.blockOn with
      | none => exact isFalse (by simp [h])
      | some m0 => exact decidable_of_iff (m0 ∈ notified) (by simp [h])
  | looping => exact isTrue trivial
  | idleWaiting => exact isTrue trivial
  | notifying it => exact isTrue trivial
  | exited => exact isTrue trivial

/-- Every in-flight work function in `s` can run to completion. -/
def resumable (s : PoolState) : Prop :=
  ∀ p ∈ s.threadPool, phaseResumable s.notified p

instance (s : PoolState) : Decidable (resumable s) :=
  List.decidableBAll _ s.threadPool

theorem phaseResumable_mono {n1 n2 : List Nat} {p : WorkerPhase}
    (hsub : ∀ m ∈ n1, m ∈ n2) (h : phaseResumable n1 p) :
    phaseResumable n2 p := by
  cases p with
  | running it => exact fun m hm => hsub m (h m hm)
  | blockedOn it => obtain ⟨m, hm, hmem⟩ := h; exact ⟨m, hm, hsub m hmem⟩
  | looping => trivial
  | idleWaiting => trivial
  | notifying it => trivial
  | exited => trivial

/-- The in-flight (already dequeued, not yet completed) work item a physical
thread currently holds, if any. -/
def pendingItem : WorkerPhase → List WorkItem
  | WorkerPhase.running it => [it]
  | WorkerPhase.blockedOn it => [it]
  | _ => []

/-- All in-flight work items of the pool. -/
def pendingItems (s : PoolState) : List WorkItem :=
  (s.threadPool.map pendingItem).flatten

theorem set_same_eq {α : Type} {l : List α} {i : Nat} {a : α}
    (h : l[i]? = some a) : l.set i a = l := by
  apply List.ext_getElem?
  intro j
  rw [List.getElem?_set]
  by_cases hij : i = j
  · subst hij
    obtain ⟨hlt, _⟩ := List.getElem?_eq_some.mp h
    rw [if_pos rfl, if_pos hlt, h]
  · rw [if_neg hij]

theorem getElem?_set_lt {α : Type} (l : List α) (i : Nat) (a : α)
    (h : i < l.length) : (l.set i a)[i]? = some a := by
  rw [List.getElem?_set]
  simp [h]

theorem exitOne {s : PoolState} {i : Nat} {p : WorkerPhase}
    (hc : s.cancelled = true) (hp : s.threadPool[i]? = some p)
    (hres : phaseResumable s.notified p) :
    ∃ k t, k ≤ 4 ∧ Steps k s t ∧
      t.threadPool = s.threadPool.set i WorkerPhase.exited ∧
      t.workQueue = s.workQueue ∧ t.cancelled = true ∧
      t.submitted = s.submitted ∧
      t.completed = s.completed ++ pendingItem p ∧
      (∀ m ∈ s.notified, m ∈ t.notified) := by
  have hlt : i < s.threadPool.length := (List.getElem?_eq_some.mp hp).1
  cases p with
  | exited =>
      exact ⟨0, s, by omega, Steps.refl s, (set_same_eq hp).symm, rfl, hc, rfl,
        (List.append_nil _).symm, fun m hm => hm⟩
  | looping =>
      exact ⟨1, setPhase s i WorkerPhase.exited, by omega,
        steps_one (Step.exitLoop s i hp hc), rfl, rfl, hc, rfl,
        (List.append_nil _).symm, fun m hm => hm⟩
  | idleWaiting =>
      set u1 : PoolState := { setPhase s i WorkerPhase.looping with
        numIdleThreads := s.numIdleThreads - 1 } with hdef1
      have s1 : Step s u1 := Step.wake s i hp (Or.inr hc)
      have h1 : u1.threadPool[i]? = some WorkerPhase.looping := by
        simp [hdef1, setPhase, List.getElem?_set, hlt]
      have s2 : Step u1 (setPhase u1 i WorkerPhase.exited) :=
        Step.exitLoop u1 i h1 (by simp [hdef1, setPhase, hc])
      refine ⟨2, setPhase u1 i WorkerPhase.exited, by omega,
        Steps.tail (steps_one s1) s2, ?_, ?_, ?_, ?_, ?_, ?_⟩
      · simp [hdef1, setPhase, List.set_set]
      · simp [hdef1, setPhase]
      · simp [hdef1, setPhase, hc]
      · simp [hdef1, setPhase]
      · simp [hdef1, setPhase, pendingItem]
      · intro m hm
        simpa [hdef1, setPhase] using hm
  | running it =>
      rcases hbo : it.blockOn with _ | n
      · set u1 : PoolState := { setPhase s i (WorkerPhase.notifying it) with
          completed := s.completed ++ [it] } with hdef1
        have s1 : Step s u1 := Step.finishExec s i it hp hbo
        have h1 : u1.threadPool[i]? = some (WorkerPhase.notifying it) := by
          simp [hdef1, setPhase, List.getElem?_set, hlt]
        set u2 : PoolState := { setPhase u1 i WorkerPhase.looping with
          notified := u1.notified ++ [it.notifId] } with hdef2
        have s2 : Step u1 u2 := Step.notify u1 i it h1
        have h2 : u2.threadPool[i]? = some WorkerPhase.looping := by
          simp [hdef2, hdef1, setPhase, List.getElem?_set, hlt]
        have s3 : Step u2 (setPhase u2 i WorkerPhase.exited) :=
          Step.exitLoop u2 i h2 (by simp [hdef2, hdef1, setPhase, hc])
        refine ⟨3, setPhase u2 i WorkerPhase.exited, by omega,
          Steps.tail (Steps.tail (steps_one s1) s2) s3, ?_, ?_, ?_, ?_, ?_, ?_⟩
        · simp [hdef2, hdef1, setPhase, List.set_set]
        · simp [hdef2, hdef1, setPhase]
        · simp [hdef2, hdef1, setPhase, hc]
        · simp [hdef2, hdef1, setPhase]
        · simp [hdef2, hdef1, setPhase, pendingItem]
        · intro m hm
          simp [hdef2, hdef1, setPhase]
          exact Or.inl hm
      · have hn : n ∈ s.notified := hres n hbo
        set u1 : PoolState := setPhase s i (WorkerPhase.blockedOn it) with hdef1
        have s1 : Step s u1 := Step.startBlock s i it n hp hbo
        have h1 : u1.threadPool[i]? = some (WorkerPhase.blockedOn it) := by
          simp [hdef1, setPhase, List.getElem?_set, hlt]
        set u2 : PoolState := { setPhase u1 i (WorkerPhase.notifying it) with
          completed := u1.completed ++ [it] } with hdef2
        have s2 : Step u1 u2 :=
          Step.unblockFinish u1 i it n h1 hbo (by simpa [hdef1, setPhase] using hn)
        have h2 : u2.threadPool[i]? = some (WorkerPhase.notifying it) := by
          simp [hdef2, hdef1, setPhase, List.getElem?_set, hlt]
        set u3 : PoolState := { setPhase u2 i WorkerPhase.looping with
          notified := u2.notified ++ [it.notifId] } with hdef3
        have s3 : Step u2 u3 := Step.notify u2 i it h2
        have h3 : u3.threadPool[i]? = some WorkerPhase.looping := by
          simp [hdef3, hdef2, hdef1, setPhase, List.getElem?_set, hlt]
        have s4 : Step u3 (setPhase u3 i WorkerPhase.exited) :=
          Step.exitLoop u3 i h3 (by simp [hdef3, hdef2, hdef1, setPhase, hc])
        refine ⟨4, setPhase u3 i WorkerPhase.exited, by omega,
          Steps.tail (Steps.tail (Steps.tail (steps_one s1) s2) s3) s4,
          ?_, ?_, ?_, ?_, ?_, ?_⟩
        · simp [hdef3, hdef2, hdef1, setPhase, List.set_set]
        · simp [hdef3, hdef2, hdef1, setPhase]
        · simp [hdef3, hdef2, hdef1, setPhase, hc]
        · simp [hdef3, hdef2, hdef1, setPhase]
        · simp [hdef3, hdef2, hdef1, setPhase, pendingItem]
        · intro m hm
          simp [hdef3, hdef2, hdef1, setPhase]
          exact Or.inl hm
  | blockedOn it =>
      obtain ⟨n, hbo, hn⟩ := hres
      set u1 : PoolState := { setPhase s i (WorkerPhase.notifying it) with
        completed := s.completed ++ [it] } with hdef1
      have s1 : Step s u1 := Step.unblockFinish s i it n hp hbo hn
      have h1 : u1.threadPool[i]? = some (WorkerPhase.notifying it) := by
        simp [hdef1, setPhase, List.getElem?_set, hlt]
      set u2 : PoolState := { setPhase u1 i WorkerPhase.looping with
        notified := u1.notified ++ [it.notifId] } with hdef2
      have s2 : Step u1 u2 := Step.notify u1 i it h1
      have h2 : u2.threadPool[i]? = some WorkerPhase.looping := by
        simp [hdef2, hdef1, setPhase, List.getElem?_set, hlt]
      have s3 : Step u2 (setPhase u2 i WorkerPhase.exited) :=
        Step.exitLoop u2 i h2 (by simp [hdef2, hdef1, setPhase, hc])
      refine ⟨3, setPhase u2 i WorkerPhase.exited, by omega,
        Steps.tail (Steps.tail (steps_one s1) s2) s3, ?_, ?_, ?_, ?_, ?_, ?_⟩
      · simp [hdef2, hdef1, setPhase, List.set_set]
      · simp [hdef2, hdef1, setPhase]
      · simp [hdef2, hdef1, setPhase, hc]
      · simp [hdef2, hdef1, setPhase]
      · simp [hdef2, hdef1, setPhase, pendingItem]
      · intro m hm
        simp [hdef2, hdef1, setPhase]
        exact Or.inl hm
  | notifying it =>
      set u1 : PoolState := { setPhase s i WorkerPhase.looping with
        notified := s.notified ++ [it.notifId] } with hdef1
      have s1 : Step s u1 := Step.notify s i it hp
      have h1 : u1.threadPool[i]? = some WorkerPhase.looping := by
        simp [hdef1, setPhase, List.getElem?_set, hlt]
      have s2 : Step u1 (setPhase u1 i WorkerPhase.exited) :=
        Step.exitLoop u1 i h1 (by simp [hdef1, setPhase, hc])
      refine ⟨2, setPhase u1 i WorkerPhase.exited, by omega,
        Steps.tail (steps_one s1) s2, ?_, ?_, ?_, ?_, ?_, ?_⟩
      · simp [hdef1, setPhase, List.set_set]
      · simp [hdef1, setPhase]
      · simp [hdef1, setPhase, hc]
      · simp [hdef1, setPhase]
      · simp [hdef1, setPhase, pendingItem]
      · intro m hm
        simp [hdef1, setPhase]
        exact Or.inl hm

theorem drainUpTo (j : Nat) : ∀ s : PoolState, s.cancelled = true →
    resumable s → j ≤ s.threadPool.length →
    ∃ k t, k ≤ 4 * j ∧ Steps k s t ∧
      t.threadPool.length = s.threadPool.length ∧
      (∀ i, i < j → t.threadPool[i]? = some WorkerPhase.exited) ∧
      (∀ i, j ≤ i → t.threadPool[i]? = s.threadPool[i]?) ∧
      t.workQueue = s.workQueue ∧ t.cancelled = true ∧
      t.submitted = s.submitted ∧
      t.completed =
        s.completed ++ ((s.threadPool.take j).map pendingItem).flatten ∧
      (∀ m ∈ s.notified, m ∈ t.notified) := by
  induction j with
  | zero =>
      intro s hc hres hj
      exact ⟨0, s, by omega, Steps.refl s, rfl,
        fun i hi => absurd hi (by omega), fun i _ => rfl, rfl, hc, rfl,
        by simp, fun m hm => hm⟩
  | succ j ih =>
      intro s hc hres hj
      obtain ⟨k, t, hk, hsteps, hlen, hex, hsame, hwq, hct, hsub, hcomp, hnot⟩ :=
        ih s hc hres (by omega)
      have hjlt : j < s.threadPool.length := by omega
      have hpt : t.threadPool[j]? = s.threadPool[j]? := hsame j (Nat.le_refl j)
      obtain ⟨p, hpj⟩ : ∃ p, s.threadPool[j]? = some p :=
        ⟨_, List.getElem?_eq_getElem hjlt⟩
      have hrp : phaseResumable s.notified p := by
        apply hres
        obtain ⟨h', hg⟩ := List.getElem?_eq_some.mp hpj
        exact hg ▸ List.getElem_mem h'
      have hrp' : phaseResumable t.notified p := phaseResumable_mono hnot hrp
      obtain ⟨k', t', hk', hsteps', hpool', hwq', hct', hsub', hcomp', hnot'⟩ :=
        exitOne hct (by rw [hpt]; exact hpj) hrp'
      refine ⟨k + k', t', by omega, steps_trans hsteps hsteps',
        ?_, ?_, ?_, ?_, hct', ?_, ?_, ?_⟩
      · rw [hpool', List.length_set]; exact hlen
      · intro i hi
        rw [hpool']
        by_cases hij : i = j
        · subst hij
          exact getElem?_set_lt _ _ _ (by omega)
        · rw [List.getElem?_set_ne (by omega)]
          exact hex i (by omega)
      · intro i hi
        rw [hpool', List.getElem?_set_ne (by omega)]
        exact hsame i (by omega)
      · rw [hwq']; exact hwq
      · rw [hsub']; exact hsub
      · rw [hcomp', hcomp, List.take_succ, hpj]
        simp [List.map_append, List.flatten_append, List.append_assoc]
      · intro m hm
        exact hnot' m (hnot m hm)

/-- C4: if the pool is cancelled while items are still queued and some
in-flight items have already been dequeued (and their work functions can run
to completion), shutdown completes in a bounded number of steps — at most 4
per physical thread — reaching a state where the join on every physical
thread has returned; every in-flight item runs to completion, while the work
queue is left exactly as it was: none of the still-queued items runs (they
are abandoned), since after cancellation nothing completes beyond the old
completions and the in-flight items. -/
theorem shutdown_bounded_abandons_queue (s : PoolState)
    (hc : s.cancelled = true) (hres : resumable s) :
    ∃ k t, k ≤ 4 * size s ∧ Steps k s t ∧ joinAllReturned t ∧
      t.workQueue = s.workQueue ∧
      t.completed = s.completed ++ pendingItems s ∧
      (∀ it ∈ t.completed, it ∈ s.completed ∨ it ∈ pendingItems s) := by
  obtain ⟨k, t, hk, hsteps, hlen, hex, hsame, hwq, hct, hsub, hcomp, hnot⟩ :=
    drainUpTo s.threadPool.length s hc hres (Nat.le_refl _)
  have hcompEq : t.completed = s.completed ++ pendingItems s := by
    rw [hcomp]
    unfold pendingItems
    rw [List.take_length]
  refine ⟨k, t, hk, hsteps, ?_, hwq, hcompEq, ?_⟩
  · intro q hq
    obtain ⟨i, hi⟩ := List.mem_iff_getElem?.mp hq
    have hilt : i < t.threadPool.length := (List.getElem?_eq_some.mp hi).1
    have hexi := hex i (by omega)
    have : some q = some WorkerPhase.exited := hi ▸ hexi
    exact Option.some.inj this
  · intro it hit
    rw [hcompEq] at hit
    exact List.mem_append.mp hit

/-- An example cancelled pool: one thread mid-execution, one idle, and one
item still queued. -/
def exampleCancelled : PoolState :=
  { cancelled := true
    numIdleThreads := 1
    workQueue := [{ workId := 9, blockOn := none, notifId := 9 }]
    threadPool := [WorkerPhase.running exampleItem, WorkerPhase.idleWaiting]
    submitted := [exampleItem, { workId := 9, blockOn := none, notifId := 9 }]
    completed := []
    notified := [] }

/-- Witness for C4 at the concrete cancelled pool. -/
theorem shutdown_bounded_abandons_queue_witness :
    (exampleCancelled.cancelled = true ∧ resumable exampleCancelled) ∧
    ∃ k t, k ≤ 4 * size exampleCancelled ∧ Steps k exampleCancelled t ∧
      joinAllReturned t ∧ t.workQueue = exampleCancelled.workQueue ∧
      t.completed = exampleCancelled.completed ++ pendingItems exampleCancelled ∧
      (∀ it ∈ t.completed,
        it ∈ exampleCancelled.completed ∨ it ∈ pendingItems exampleCancelled) :=
  ⟨⟨rfl, by decide⟩,
    shutdown_bounded_abandons_queue exampleCancelled rfl (by decide)⟩

theorem broadcastAll_eq_self {s : PoolState}
    (h0 : countIdle s.threadPool = 0) (hInv : Inv s) : broadcastAll s = s := by
  have hno : ∀ p ∈ s.threadPool, ¬(p = WorkerPhase.idleWaiting) := by
    intro p hp
    have := List.countP_eq_zero.mp h0 p hp
    simpa using this
  have hmap : s.threadPool.map
      (fun p => if p = WorkerPhase.idleWaiting then WorkerPhase.looping else p) =
      s.threadPool := by
    have : s.threadPool.map
        (fun p => if p = WorkerPhase.idleWaiting then WorkerPhase.looping else p) =
        s.threadPool.map id :=
      List.map_congr_left (fun a ha => if_neg (hno a ha))
    rw [this, List.map_id]
  have hni : s.numIdleThreads = 0 := by rw [hInv, h0]
  cases s
  simp_all [broadcastAll]

theorem broadcast_steps : ∀ (n : Nat) (s : PoolState), s.cancelled = true →
    Inv s → countIdle s.threadPool = n →
    ∃ k, k ≤ n ∧ Steps k s (broadcastAll s) := by
  intro n
  induction n with
  | zero =>
      intro s hc hInv h0
      refine ⟨0, Nat.le_refl _, ?_⟩
      rw [broadcastAll_eq_self h0 hInv]
      exact Steps.refl s
  | succ n ih =>
      intro s hc hInv h0
      have hpos : 0 < countIdle s.threadPool := by omega
      obtain ⟨q, hqmem, hq⟩ := List.countP_pos_iff.mp hpos
      have hq' : q = WorkerPhase.idleWaiting := of_decide_eq_true hq
      subst hq'
      obtain ⟨i, hi⟩ := List.mem_iff_getElem?.mp hqmem
      have hlt : i < s.threadPool.length := (List.getElem?_eq_some.mp hi).1
      set u : PoolState := { setPhase s i WorkerPhase.looping with
        numIdleThreads := s.numIdleThreads - 1 } with hdef
      have s1 : Step s u := Step.wake s i hi (Or.inr hc)
      have hcu : u.cancelled = true := by simp [hdef, setPhase, hc]
      have hInvU : Inv u := inv_step hInv s1
      have hcount : countIdle u.threadPool = n := by
        have hset := countIdle_set WorkerPhase.looping hi
        have : u.threadPool = s.threadPool.set i WorkerPhase.looping := by
          simp [hdef, setPhase]
        rw [this, hset]
        simp
        omega
      obtain ⟨k, hk, hsteps⟩ := ih u hcu hInvU hcount
      have hmaps : (s.threadPool.set i WorkerPhase.looping).map
          (fun p => if p = WorkerPhase.idleWaiting then WorkerPhase.looping
                    else p) =
          s.threadPool.map
          (fun p => if p = WorkerPhase.idleWaiting then WorkerPhase.looping
                    else p) := by
        apply List.ext_getElem?
        intro j
        rw [List.getElem?_map, List.getElem?_map, List.getElem?_set]
        by_cases hij : i = j
        · subst hij
          rw [if_pos rfl, if_pos hlt, hi]
          simp
        · rw [if_neg hij]
      have hbeq : broadcastAll u = broadcastAll s := by
        simp [broadcastAll, hdef, setPhase, hmaps]
      refine ⟨1 + k, by omega, ?_⟩
      rw [← hbeq]
      exact steps_trans (steps_one s1) hsteps

/-- C3: the destructor first sets the cancelled flag (changing nothing else),
then broadcasts the condition variable: the broadcast is a valid sequence of
wake steps — one per idle worker, so at most `num_idle_threads_` of them —
after which no physical thread is left blocked on the condition variable
(every idle worker woke, as a single-signal wake could not guarantee) and the
idle count is zero; finally, joining every physical thread terminates: some
further execution reaches a state in which every registered thread has exited
its loop, so the blocking `join` on each thread returns. -/
theorem destructor_sequence (s : PoolState) (hInv : Inv s)
    (hres : resumable s) :
    ((setCancelled s).cancelled = true ∧
     (setCancelled s).workQueue = s.workQueue ∧
     (setCancelled s).threadPool = s.threadPool) ∧
    (∃ k, k ≤ s.numIdleThreads ∧
      Steps k (setCancelled s) (broadcastAll (setCancelled s))) ∧
    (∀ p ∈ (broadcastAll (setCancelled s)).threadPool,
      p ≠ WorkerPhase.idleWaiting) ∧
    (broadcastAll (setCancelled s)).numIdleThreads = 0 ∧
    (∃ k t, Steps k (broadcastAll (setCancelled s)) t ∧ joinAllReturned t) := by
  refine ⟨⟨rfl, rfl, rfl⟩, ?_, ?_, rfl, ?_⟩
  · obtain ⟨k, hk, hsteps⟩ :=
      broadcast_steps (countIdle (setCancelled s).threadPool) (setCancelled s)
        rfl hInv rfl
    refine ⟨k, ?_, hsteps⟩
    unfold Inv at hInv
    rw [hInv]
    exact hk
  · intro p hp
    obtain ⟨q, hq, heq⟩ := List.mem_map.mp hp
    by_cases hqi : q = WorkerPhase.idleWaiting
    · rw [hqi] at heq
      simp at heq
      rw [← heq]
      simp
    · rw [if_neg hqi] at heq
      rw [← heq]
      exact hqi
  · have hresB : resumable (broadcastAll (setCancelled s)) := by
      intro p hp
      obtain ⟨q, hq, heq⟩ := List.mem_map.mp hp
      subst heq
      by_cases hqi : q = WorkerPhase.idleWaiting
      · simp [hqi, phaseResumable]
      · rw [if_neg hqi]
        exact hres q hq
    obtain ⟨k, t, hk, hsteps, hlen, hex, _, _, _, _, _, _⟩ :=
      drainUpTo (broadcastAll (setCancelled s)).threadPool.length
        (broadcastAll (setCancelled s)) rfl hresB (Nat.le_refl _)
    refine ⟨k, t, hsteps, ?_⟩
    intro q hq
    obtain ⟨i, hi⟩ := List.mem_iff_getElem?.mp hq
    have hilt : i < t.threadPool.length := (List.getElem?_eq_some.mp hi).1
    have hexi := hex i (by omega)
    exact Option.some.inj (hi ▸ hexi)

/-- Witness for C3 at a concrete pool with one idle worker. -/
theorem destructor_sequence_witness :
    (Inv exampleIdle ∧ resumable exampleIdle) ∧
    (∀ p ∈ (broadcastAll (setCancelled exampleIdle)).threadPool,
      p ≠ WorkerPhase.idleWaiting) ∧
    (broadcastAll (setCancelled exampleIdle)).numIdleThreads = 0 :=
  ⟨⟨by decide, by decide⟩,
    (destructor_sequence exampleIdle (by decide) (by decide)).2.2.1,
    (destructor_sequence exampleIdle (by decide) (by decide)).2.2.2.1⟩

theorem poolState_ext {a b : PoolState}
    (h1 : a.cancelled = b.cancelled) (h2 : a.numIdleThreads = b.numIdleThreads)
    (h3 : a.workQueue = b.workQueue) (h4 : a.threadPool = b.threadPool)
    (h5 : a.submitted = b.submitted) (h6 : a.completed = b.completed)
    (h7 : a.notified = b.notified) : a = b := by
  cases a
  cases b
  simp_all

theorem set_append_len {α : Type} (l : List α) (a b : α) (j : Nat)
    (hj : l.length = j) : (l ++ [a]).set j b = l ++ [b] := by
  subst hj
  induction l with
  | nil => rfl
  | cons x xs ih => simp

theorem getElem?_append_singleton {α : Type} (l : List α) (a : α) (j : Nat)
    (hj : l.length = j) : (l ++ [a])[j]? = some a := by
  subst hj
  exact List.getElem?_concat_length l a

theorem getElem?_map_range {α : Type} {n k : Nat} (f : Nat → α) (hk : k < n) :
    ((List.range n).map f)[k]? = some (f k) := by
  rw [List.getElem?_map, List.getElem?_range hk]
  rfl

theorem set_map_range {α : Type} {n k : Nat} (f : Nat → α) (b : α)
    (hk : k < n) :
    ((List.range n).map f).set k b =
      (List.range n).map (fun x => if x = k then b else f x) := by
  apply List.ext_getElem?
  intro j
  rw [List.getElem?_set]
  by_cases hjk : k = j
  · subst hjk
    rw [if_pos rfl, if_pos (by simpa using hk), getElem?_map_range _ hk]
    simp
  · rw [if_neg hjk, List.getElem?_map, List.getElem?_map]
    by_cases hj : j < n
    · rw [List.getElem?_range hj]
      have hne : ¬j = k := fun h => hjk h.symm
      simp [hne]
    · rw [List.getElem?_eq_none (by simpa using hj)]
      rfl

/-- The `j`-th logical thread of a blocking chain of depth `D`: its work
function blocks on the done-notification of thread `j + 1`, except for the
last thread (`j = D`), which completes immediately. -/
def chainItem (D j : Nat) : WorkItem :=
  { workId := j
    blockOn := if j < D then some (j + 1) else none
    notifId := j }

/-- The submissions of the depth-`D` blocking chain, in order. -/
def chainSubmissions (D : Nat) : List WorkItem :=
  (List.range D).map (fun k => chainItem D (k + 1))

/-- The pool state after the first `j` chain threads have been submitted,
dequeued, and have blocked: `j` physical threads, all holding a blocked
logical thread, none idle. -/
def buildState (D j : Nat) : PoolState :=
  { cancelled := false
    numIdleThreads := 0
    workQueue := []
    threadPool := (List.range j).map
      (fun k => WorkerPhase.blockedOn (chainItem D (k + 1)))
    submitted := (List.range j).map (fun k => chainItem D (k + 1))
    completed := []
    notified := [] }

theorem buildState_zero (D : Nat) : buildState D 0 = initState := by
  simp [buildState, initState]

theorem build_reachable (D : Nat) : ∀ j, j < D → Reachable (buildState D j) := by
  intro j
  induction j with
  | zero =>
      intro _
      rw [buildState_zero]
      exact reachable_init
  | succ j ih =>
      intro hj
      obtain ⟨m, hm⟩ := ih (by omega)
      have s1 : Step (buildState D j)
          (submit (buildState D j) (chainItem D (j + 1))) :=
        Step.submit _ _ rfl
      set u1 : PoolState := submit (buildState D j) (chainItem D (j + 1))
        with hdef1
      have hTP1 : u1.threadPool =
          ((List.range j).map
            (fun k => WorkerPhase.blockedOn (chainItem D (k + 1)))) ++
            [WorkerPhase.looping] := by
        simp [hdef1, submit, buildState]
      have h1p : u1.threadPool[j]? = some WorkerPhase.looping := by
        rw [hTP1]
        exact getElem?_append_singleton _ _ j (by simp)
      have h1q : u1.workQueue = chainItem D (j + 1) :: [] := by
        simp [hdef1, submit, buildState]
      have s2 : Step u1 { setPhase u1 j
          (WorkerPhase.running (chainItem D (j + 1))) with workQueue := [] } :=
        Step.takeWork u1 j (chainItem D (j + 1)) [] h1p
          (by simp [hdef1, submit, buildState]) h1q
      set u2 : PoolState := { setPhase u1 j
          (WorkerPhase.running (chainItem D (j + 1))) with
          workQueue := ([] : List WorkItem) } with hdef2
      have hTP2 : u2.threadPool =
          ((List.range j).map
            (fun k => WorkerPhase.blockedOn (chainItem D (k + 1)))) ++
            [WorkerPhase.running (chainItem D (j + 1))] := by
        have h0 : u2.threadPool =
            u1.threadPool.set j (WorkerPhase.running (chainItem D (j + 1))) := by
          simp [hdef2, setPhase]
        rw [h0, hTP1]
        exact set_append_len _ _ _ j (by simp)
      have h2p : u2.threadPool[j]? =
          some (WorkerPhase.running (chainItem D (j + 1))) := by
        rw [hTP2]
        exact getElem?_append_singleton _ _ j (by simp)
      have hblock : (chainItem D (j + 1)).blockOn = some (j + 2) := by
        simp [chainItem, hj]
      have s3 : Step u2
          (setPhase u2 j (WorkerPhase.blockedOn (chainItem D (j + 1)))) :=
        Step.startBlock u2 j (chainItem D (j + 1)) (j + 2) h2p hblock
      have hfinal : setPhase u2 j (WorkerPhase.blockedOn (chainItem D (j + 1))) =
          buildState D (j + 1) := by
        apply poolState_ext
        · simp [setPhase, hdef2, hdef1, submit, buildState]
        · simp [setPhase, hdef2, hdef1, submit, buildState]
        · simp [setPhase, hdef2, hdef1, submit, buildState]
        · show u2.threadPool.set j _ = _
          rw [hTP2, set_append_len _ _ _ j (by simp)]
          simp [buildState, List.range_succ]
        · simp [setPhase, hdef2, hdef1, submit, buildState, List.range_succ]
        · simp [setPhase, hdef2, hdef1, submit, buildState]
        · simp [setPhase, hdef2, hdef1, submit, buildState]
      refine ⟨m + 3, ?_⟩
      have hchain := Steps.tail (Steps.tail (Steps.tail hm s1) s2) s3
      rwa [hfinal] at hchain

/-- The pool state after the last chain thread has completed and the `m`
deepest notifications (for chain threads `D - m + 1 .. D`) have fired: the
workers that carried those threads are back at the top of their loops, the
rest are still blocked. -/
def unwindState (D m : Nat) : PoolState :=
  { cancelled := false
    numIdleThreads := 0
    workQueue := []
    threadPool := (List.range D).map
      (fun k => if D - m ≤ k then WorkerPhase.looping
                else WorkerPhase.blockedOn (chainItem D (k + 1)))
    submitted := (List.range D).map (fun k => chainItem D (k + 1))
    completed := (List.range m).map (fun x => chainItem D (D - x))
    notified := (List.range m).map (fun x => D - x) }

theorem range_map_succ_last {α : Type} (g : Nat → α) (D : Nat) (hD : 1 ≤ D) :
    (List.range D).map g = (List.range (D - 1)).map g ++ [g (D - 1)] := by
  conv_lhs => rw [show D = (D - 1) + 1 from by omega]
  rw [List.range_succ, List.map_append]
  rfl

theorem unwind_one_pool (D : Nat) (hD : 1 ≤ D) :
    ((List.range (D - 1)).map
      (fun k => WorkerPhase.blockedOn (chainItem D (k + 1)))) ++
      [WorkerPhase.looping] =
    (List.range D).map
      (fun k => if D - 1 ≤ k then WorkerPhase.looping
                else WorkerPhase.blockedOn (chainItem D (k + 1))) := by
  apply List.ext_getElem?
  intro j
  by_cases h1 : j < D - 1
  · rw [List.getElem?_append, if_pos (by simp; omega),
      getElem?_map_range _ h1, getElem?_map_range _ (by omega : j < D),
      if_neg (by omega)]
  · by_cases h2 : j < D
    · have hj : j = D - 1 := by omega
      subst hj
      rw [getElem?_append_singleton _ _ _ (by simp),
        getElem?_map_range _ h2, if_pos (by omega)]
    · rw [List.getElem?_eq_none (by simp; omega),
        List.getElem?_eq_none (by simp; omega)]

theorem unwind_one (D : Nat) (hD : 1 ≤ D) : Reachable (unwindState D 1) := by
  obtain ⟨m, hm⟩ := build_reachable D (D - 1) (by omega)
  have s1 : Step (buildState D (D - 1))
      (submit (buildState D (D - 1)) (chainItem D D)) :=
    Step.submit _ _ rfl
  set u1 : PoolState := submit (buildState D (D - 1)) (chainItem D D) with hdef1
  have hTP1 : u1.threadPool =
      ((List.range (D - 1)).map
        (fun k => WorkerPhase.blockedOn (chainItem D (k + 1)))) ++
        [WorkerPhase.looping] := by
    simp [hdef1, submit, buildState]
  have h1p : u1.threadPool[D - 1]? = some WorkerPhase.looping := by
    rw [hTP1]
    exact getElem?_append_singleton _ _ (D - 1) (by simp)
  have s2 : Step u1 { setPhase u1 (D - 1)
      (WorkerPhase.running (chainItem D D)) with workQueue := [] } :=
    Step.takeWork u1 (D - 1) (chainItem D D) [] h1p
      (by simp [hdef1, submit, buildState])
      (by simp [hdef1, submit, buildState])
  set u2 : PoolState := { setPhase u1 (D - 1)
      (WorkerPhase.running (chainItem D D)) with
      workQueue := ([] : List WorkItem) } with hdef2
  have hTP2 : u2.threadPool =
      ((List.range (D - 1)).map
        (fun k => WorkerPhase.blockedOn (chainItem D (k + 1)))) ++
        [WorkerPhase.running (chainItem D D)] := by
    have h0 : u2.threadPool =
        u1.threadPool.set (D - 1) (WorkerPhase.running (chainItem D D)) := by
      simp [hdef2, setPhase]
    rw [h0, hTP1]
    exact set_append_len _ _ _ (D - 1) (by simp)
  have h2p : u2.threadPool[D - 1]? =
      some (WorkerPhase.running (chainItem D D)) := by
    rw [hTP2]
    exact getElem?_append_singleton _ _ (D - 1) (by simp)
  have hnb : (chainItem D D).blockOn = none := by
    simp [chainItem]
  have s3 : Step u2 { setPhase u2 (D - 1)
      (WorkerPhase.notifying (chainItem D D)) with
      completed := u2.completed ++ [chainItem D D] } :=
    Step.finishExec u2 (D - 1) (chainItem D D) h2p hnb
  set u3 : PoolState := { setPhase u2 (D - 1)
      (WorkerPhase.notifying (chainItem D D)) with
      completed := u2.completed ++ [chainItem D D] } with hdef3
  have hTP3 : u3.threadPool =
      ((List.range (D - 1)).map
        (fun k => WorkerPhase.blockedOn (chainItem D (k + 1)))) ++
        [WorkerPhase.notifying (chainItem D D)] := by
    have h0 : u3.threadPool =
        u2.threadPool.set (D - 1) (WorkerPhase.notifying (chainItem D D)) := by
      simp [hdef3, setPhase]
    rw [h0, hTP2]
    exact set_append_len _ _ _ (D - 1) (by simp)
  have h3p : u3.threadPool[D - 1]? =
      some (WorkerPhase.notifying (chainItem D D)) := by
    rw [hTP3]
    exact getElem?_append_singleton _ _ (D - 1) (by simp)
  have s4 : Step u3 { setPhase u3 (D - 1) WorkerPhase.looping with
      notified := u3.notified ++ [(chainItem D D).notifId] } :=
    Step.notify u3 (D - 1) (chainItem D D) h3p
  have hfinal : ({ setPhase u3 (D - 1) WorkerPhase.looping with
      notified := u3.notified ++ [(chainItem D D).notifId] } : PoolState) =
      unwindState D 1 := by
    apply poolState_ext
    · simp [setPhase, hdef3, hdef2, hdef1, submit, buildState, unwindState]
    · simp [setPhase, hdef3, hdef2, hdef1, submit, buildState, unwindState]
    · simp [setPhase, hdef3, hdef2, hdef1, submit, buildState, unwindState]
    · show u3.threadPool.set (D - 1) WorkerPhase.looping = _
      rw [hTP3, set_append_len _ _ _ (D - 1) (by simp)]
      rw [unwind_one_pool D hD]
      rfl
    · show u1.submitted = (unwindState D 1).submitted
      have h0 : u1.submitted = (List.range (D - 1)).map
          (fun k => chainItem D (k + 1)) ++ [chainItem D D] := by
        simp [hdef1, submit, buildState]
      rw [h0]
      show _ = (List.range D).map (fun k => chainItem D (k + 1))
      rw [range_map_succ_last (fun k => chainItem D (k + 1)) D hD,
        show D - 1 + 1 = D from by omega]
    · show u2.completed ++ [chainItem D D] = _
      have h0 : u2.completed = [] := by
        simp [hdef2, hdef1, submit, setPhase, buildState]
      rw [h0]
      simp [unwindState, List.range_succ]
    · show u3.notified ++ [(chainItem D D).notifId] = _
      have h0 : u3.notified = [] := by
        simp [hdef3, hdef2, hdef1, submit, setPhase, buildState]
      rw [h0]
      simp [unwindState, chainItem, List.range_succ]
  refine ⟨m + 4, ?_⟩
  have hchain :=
    Steps.tail (Steps.tail (Steps.tail (Steps.tail hm s1) s2) s3) s4
  rwa [hfinal] at hchain

theorem unwind_step (D m : Nat) (hm1 : 1 ≤ m) (hmD : m < D)
    (hr : Reachable (unwindState D m)) : Reachable (unwindState D (m + 1)) := by
  obtain ⟨n0, hn0⟩ := hr
  have hiD : D - m - 1 < D := by omega
  have hpi : (unwindState D m).threadPool[D - m - 1]? =
      some (WorkerPhase.blockedOn (chainItem D (D - m))) := by
    show ((List.range D).map _)[D - m - 1]? = _
    rw [getElem?_map_range _ hiD, if_neg (by omega),
      show D - m - 1 + 1 = D - m from by omega]
  have hb : (chainItem D (D - m)).blockOn = some (D - m + 1) := by
    simp [chainItem, show D - m < D from by omega]
  have hn : D - m + 1 ∈ (unwindState D m).notified := by
    show _ ∈ (List.range m).map (fun x => D - x)
    exact List.mem_map.mpr ⟨m - 1, List.mem_range.mpr (by omega),
      by show D - (m - 1) = D - m + 1; omega⟩
  have s1 : Step (unwindState D m) { setPhase (unwindState D m) (D - m - 1)
      (WorkerPhase.notifying (chainItem D (D - m))) with
      completed := (unwindState D m).completed ++ [chainItem D (D - m)] } :=
    Step.unblockFinish (unwindState D m) (D - m - 1) (chainItem D (D - m))
      (D - m + 1) hpi hb hn
  set u1 : PoolState := { setPhase (unwindState D m) (D - m - 1)
      (WorkerPhase.notifying (chainItem D (D - m))) with
      completed := (unwindState D m).completed ++ [chainItem D (D - m)] }
    with hdef1
  have hlen : D - m - 1 < (unwindState D m).threadPool.length := by
    show D - m - 1 < ((List.range D).map _).length
    simp
    omega
  have h1p : u1.threadPool[D - m - 1]? =
      some (WorkerPhase.notifying (chainItem D (D - m))) := by
    have h0 : u1.threadPool = ((unwindState D m).threadPool).set (D - m - 1)
        (WorkerPhase.notifying (chainItem D (D - m))) := by
      simp [hdef1, setPhase]
    rw [h0]
    exact getElem?_set_lt _ _ _ hlen
  have s2 : Step u1 { setPhase u1 (D - m - 1) WorkerPhase.looping with
      notified := u1.notified ++ [(chainItem D (D - m)).notifId] } :=
    Step.notify u1 (D - m - 1) (chainItem D (D - m)) h1p
  have hfinal : ({ setPhase u1 (D - m - 1) WorkerPhase.looping with
      notified := u1.notified ++ [(chainItem D (D - m)).notifId] } : PoolState) =
      unwindState D (m + 1) := by
    apply poolState_ext
    · simp [hdef1, setPhase, unwindState]
    · simp [hdef1, setPhase, unwindState]
    · simp [hdef1, setPhase, unwindState]
    · show u1.threadPool.set (D - m - 1) WorkerPhase.looping = _
      have h0 : u1.threadPool = ((unwindState D m).threadPool).set (D - m - 1)
          (WorkerPhase.notifying (chainItem D (D - m))) := by
        simp [hdef1, setPhase]
      rw [h0, List.set_set]
      show ((List.range D).map
        (fun k => if D - m ≤ k then WorkerPhase.looping
                  else WorkerPhase.blockedOn (chainItem D (k + 1)))).set
          (D - m - 1) WorkerPhase.looping = _
      rw [set_map_range _ _ hiD]
      apply List.map_congr_left
      intro x hx
      have hxD : x < D := List.mem_range.mp hx
      by_cases hxi : x = D - m - 1
      · rw [if_pos hxi, if_pos (by omega)]
      · rw [if_neg hxi]
        by_cases hge : D - m ≤ x
        · rw [if_pos hge, if_pos (by omega)]
        · rw [if_neg hge, if_neg (by omega)]
    · simp [hdef1, setPhase, unwindState]
    · show u1.completed = _
      have h0 : u1.completed = (List.range m).map
          (fun x => chainItem D (D - x)) ++ [chainItem D (D - m)] := by
        simp [hdef1, setPhase, unwindState]
      rw [h0]
      show _ = (List.range (m + 1)).map fun x => chainItem D (D - x)
      rw [List.range_succ, List.map_append]
      simp
    · show u1.notified ++ [(chainItem D (D - m)).notifId] = _
      have h0 : u1.notified = (List.range m).map (fun x => D - x) := by
        simp [hdef1, setPhase, unwindState]
      rw [h0]
      show _ = (List.range (m + 1)).map fun x => D - x
      rw [List.range_succ, List.map_append]
      simp [chainItem]
  refine ⟨n0 + 2, ?_⟩
  have hchain := Steps.tail (Steps.tail hn0 s1) s2
  rwa [hfinal] at hchain

theorem unwind_all (D : Nat) : ∀ m, 1 ≤ m → m ≤ D →
    Reachable (unwindState D m) := by
  intro m
  induction m with
  | zero => intro h1 _; omega
  | succ m ih =>
      intro h1 h2
      by_cases hm0 : m = 0
      · subst hm0
        exact unwind_one D (by omega)
      · exact unwind_step D m (by omega) (by omega) (ih (by omega) (by omega))

/-- C9: for the depth-`D` blocking chain — logical thread `j` blocks on the
done-notification of thread `j + 1`, thread `D` completes immediately — there
is an execution of the pool from the fresh state whose submissions are
exactly the chain and that reaches a state in which the physical-thread count
is at least `D` (one spawn per submission, since no thread ever goes idle
while the chain is blocked) and the notification of every submitted handle
has fired, so every `Join()` returns: no deadlock. -/
theorem chain_growth_and_all_join (D : Nat) :
    ∃ s, Reachable s ∧ s.submitted = chainSubmissions D ∧
      D ≤ size s ∧ ∀ it ∈ s.submitted, it.notifId ∈ s.notified := by
  rcases Nat.eq_zero_or_pos D with hD | hD
  · subst hD
    refine ⟨initState, reachable_init, ?_, ?_, ?_⟩
    · simp [chainSubmissions, initState]
    · simp [size, initState]
    · intro it hit
      simp [initState] at hit
  · have hreach := unwind_all D D hD (Nat.le_refl D)
    refine ⟨unwindState D D, hreach, rfl, ?_, ?_⟩
    · simp [size, unwindState]
    · intro it hit
      obtain ⟨k, hk, heq⟩ := List.mem_map.mp hit
      have hkD : k < D := List.mem_range.mp hk
      subst heq
      show (chainItem D (k + 1)).notifId ∈ (List.range D).map (fun x => D - x)
      refine List.mem_map.mpr ⟨D - k - 1, List.mem_range.mpr (by omega), ?_⟩
      show D - (D - k - 1) = (chainItem D (k + 1)).notifId
      simp [chainItem]
      omega
